import Mathlib

/-!
Verification of the sparse-matrix utilities of the gnomad_methods repository
(module `sparse_mt.py`, present in two near-identical copies under
`gnomad/utils` and `gnomad_hail/utils`).

The Python code manipulates Hail matrix tables.  We shallowly embed the
algorithms as pure Lean functions:

* a sparse matrix row becomes a pair of a locus and a per-sample list of
  optional entries;
* Hail scans (`hl.scan._prev_nonnull`, `hl.scan.array_agg`) become explicit
  left folds carrying per-sample state, with the exclusive-scan convention
  (the value reported at a row reflects only strictly preceding rows);
* missing values become `Option`;
* Hail aggregation expressions are modelled at the level of the aggregated
  per-field values; collaborator functions declared out of scope by the
  code (`fs_from_sb`, floating-point square root) are passed as function
  parameters;
* Python dictionaries become association lists with in-place-update
  semantics, and raising becomes `Except`.

Contigs are represented by their index in the externally supplied contig
ordering, so a locus is a pair of naturals and the row ordering of a matrix
table is the lexicographic order on those pairs.
-/

/-- A genomic locus: contig (as its index in the reference-genome contig
ordering) and 1-based position. -/
structure Locus where
  contig : Nat
  position : Nat
deriving DecidableEq, Repr

/-- Strict ordering of loci: by contig order first, then by position.
Rows of a matrix table are strictly increasing in this order. -/
def lexLt (a b : Locus) : Prop :=
  a.contig < b.contig ∨ (a.contig = b.contig ∧ a.position < b.position)

instance (a b : Locus) : Decidable (lexLt a b) := by
  unfold lexLt; infer_instance

/-! ## Reference-block scan engine (`compute_last_ref_block_end`)

The source selects the `END` entry field, localizes entries and computes,
with an exclusive scan, for each sample the last row at which that sample
had `END` defined, keeping the pair (row locus, END value).  At each row it
collects the start positions of the remembered blocks that still cover the
row locus and takes their minimum, defaulting to the row position. -/

/-- A row of the matrix as seen by `compute_last_ref_block_end`: the locus
and, per sample, the optional `END` field of the entry (missing entries and
entries without `END` are both `none`, exactly like
`hl.or_missing(hl.is_defined(entry.END), ...)` in the source). -/
abbrev ScanRow := Locus × List (Option Nat)

/-- One step of the per-sample `hl.scan._prev_nonnull` state update: a
defined `END` replaces the remembered (block start locus, END) pair, a
missing value leaves it unchanged. -/
def stepStates (states : List (Option (Locus × Nat))) (row : ScanRow) :
    List (Option (Locus × Nat)) :=
  List.zipWith
    (fun st e =>
      match e with
      | some ep => some (row.1, ep)
      | none => st)
    states row.2

/-- The mapped expression of the source (step 2.1): the start position of a
remembered block when it still covers the locus `l`, otherwise missing. -/
def blockStart (l : Locus) (st : Option (Locus × Nat)) : Option Nat :=
  match st with
  | none => none
  | some (bl, e) =>
      if l.position ≤ e ∧ bl.contig = l.contig then some bl.position else none

/-- Minimum of a list of naturals, missing on the empty list (the semantics
of `hl.min` over a collection, which skips missing elements; the missing
elements are already removed here by `List.filterMap`). -/
def minOpt : List Nat → Option Nat
  | [] => none
  | x :: xs =>
      match minOpt xs with
      | none => some x
      | some m => some (if x ≤ m then x else m)

/-- The value the scan produces at one row from the per-sample states:
`hl.or_else(hl.min(... blockStart ...), locus.position)`. -/
def rowLastEND (l : Locus) (states : List (Option (Locus × Nat))) : Nat :=
  match minOpt (states.filterMap (blockStart l)) with
  | some m => m
  | none => l.position

/-- The scan loop: emit the value for the current row from the states of
strictly preceding rows, then fold the current row into the states. -/
def lastENDGo : List (Option (Locus × Nat)) → List ScanRow → List Nat
  | _, [] => []
  | states, row :: rest => rowLastEND row.1 states :: lastENDGo (stepStates states row) rest

/-- Model of `compute_last_ref_block_end` for a matrix with `n` sample
columns: one `last_END_position` value per row. -/
def compute_last_ref_block_end (n : Nat) (rows : List ScanRow) : List Nat :=
  lastENDGo (List.replicate n none) rows

/-- The per-sample scan state available when row `i` is emitted: the fold
of the strictly preceding rows over the all-missing initial state. -/
def statesBefore (n : Nat) (rows : List ScanRow) (i : Nat) :
    List (Option (Locus × Nat)) :=
  (rows.take i).foldl stepStates (List.replicate n none)

/-- Total list indexing with a default, used to state facts about computed
lists without partiality. -/
def nthD {α : Type _} : List α → Nat → α → α
  | [], _, d => d
  | x :: _, 0, _ => x
  | _ :: xs, i + 1, d => nthD xs i d

theorem nthD_of_get? {α : Type _} {l : List α} {i : Nat} {v : α} (d : α)
    (h : l.get? i = some v) : nthD l i d = v := by
  induction l generalizing i with
  | nil => simp at h
  | cons x xs ih =>
      cases i with
      | zero => exact Option.some.inj h
      | succ j => exact ih h

theorem minOpt_eq_none_iff (l : List Nat) : minOpt l = none ↔ l = [] := by
  cases l with
  | nil => simp [minOpt]
  | cons x xs =>
      simp only [minOpt]
      cases minOpt xs <;> simp

theorem minOpt_mem {l : List Nat} {m : Nat} (h : minOpt l = some m) : m ∈ l := by
  induction l generalizing m with
  | nil => simp [minOpt] at h
  | cons x xs ih =>
      simp only [minOpt] at h
      cases hxs : minOpt xs with
      | none => rw [hxs] at h; simp at h; simp [h]
      | some m' =>
          rw [hxs] at h
          simp at h
          have hxor : m = x ∨ m = m' := by
            split at h
            · exact Or.inl h.symm
            · exact Or.inr h.symm
          rcases hxor with hx | hx
          · rw [hx]; exact List.mem_cons_self x xs
          · rw [hx]; exact List.mem_cons_of_mem x (ih hxs)

theorem lastENDGo_get? (states : List (Option (Locus × Nat))) (rows : List ScanRow)
    (i : Nat) :
    (lastENDGo states rows).get? i =
      (rows.get? i).map (fun row => rowLastEND row.1 ((rows.take i).foldl stepStates states)) := by
  induction rows generalizing states i with
  | nil => simp [lastENDGo]
  | cons row rest ih =>
      cases i with
      | zero => simp [lastENDGo]
      | succ j => simpa [lastENDGo] using ih (stepStates states row) j

theorem mem_stepStates {st : Option (Locus × Nat)} {states : List (Option (Locus × Nat))}
    {row : ScanRow} (h : st ∈ stepStates states row) :
    st ∈ states ∨ ∃ ep, some ep ∈ row.2 ∧ st = some (row.1, ep) := by
  obtain ⟨l, es⟩ := row
  simp only [stepStates] at h
  induction states generalizing es with
  | nil => simp at h
  | cons s ss ih =>
      cases es with
      | nil => simp at h
      | cons e es' =>
          simp only [List.zipWith] at h
          rcases List.mem_cons.mp h with h0 | h1
          · cases e with
            | none =>
                left
                have hs : st = s := h0
                rw [hs]; exact List.mem_cons_self s ss
            | some ep =>
                right
                refine ⟨ep, List.mem_cons_self _ _, ?_⟩
                exact h0
          · rcases ih es' h1 with hmem | ⟨ep, hep, heq⟩
            · left; exact List.mem_cons_of_mem _ hmem
            · right; exact ⟨ep, List.mem_cons_of_mem _ hep, heq⟩

theorem mem_foldl_stepStates {st : Option (Locus × Nat)}
    (states0 : List (Option (Locus × Nat))) (rs : List ScanRow)
    (h : st ∈ rs.foldl stepStates states0) :
    st ∈ states0 ∨ ∃ r ∈ rs, ∃ ep, some ep ∈ r.2 ∧ st = some (r.1, ep) := by
  induction rs generalizing states0 with
  | nil => exact Or.inl h
  | cons r rest ih =>
      simp only [List.foldl] at h
      rcases ih (stepStates states0 r) h with hmem | ⟨r', hr', hwit⟩
      · rcases mem_stepStates hmem with h0 | ⟨ep, hep, heq⟩
        · exact Or.inl h0
        · exact Or.inr ⟨r, by simp, ep, hep, heq⟩
      · exact Or.inr ⟨r', List.mem_cons_of_mem _ hr', hwit⟩

theorem mem_take_get? {α : Type _} {r : α} :
    ∀ (l : List α) (i : Nat), r ∈ l.take i → ∃ j, j < i ∧ l.get? j = some r := by
  intro l
  induction l with
  | nil => intro i h; simp at h
  | cons x xs ih =>
      intro i h
      cases i with
      | zero => simp at h
      | succ i' =>
          simp only [List.take] at h
          rcases List.mem_cons.mp h with h0 | h1
          · exact ⟨0, Nat.succ_pos _, by simp [h0]⟩
          · rcases ih i' h1 with ⟨j, hj, hget⟩
            exact ⟨j + 1, Nat.succ_lt_succ hj, by simpa using hget⟩

theorem statesBefore_block_lt (n : Nat) (rows : List ScanRow) (i : Nat)
    (hi : i < rows.length)
    (hsort : rows.Pairwise (fun a b => lexLt a.1 b.1)) :
    ∀ st ∈ statesBefore n rows i, ∀ bl ep, st = some (bl, ep) →
      lexLt bl (rows.get ⟨i, hi⟩).1 := by
  intro st hst bl ep hbl
  rcases mem_foldl_stepStates _ _ hst with hmem | ⟨r, hr, ep', _, heq⟩
  · rw [hbl] at hmem
    have := List.eq_of_mem_replicate hmem
    simp at this
  · rw [hbl] at heq
    have hrfst : r.1 = bl := by injection heq with h; exact (congrArg Prod.fst h).symm
    rcases mem_take_get? rows i hr with ⟨j, hji, hget⟩
    have hjlen : j < rows.length := (List.get?_eq_some.mp hget).1
    have hrget : rows.get ⟨j, hjlen⟩ = r := by
      have := List.get?_eq_get hjlen
      rw [this] at hget
      injection hget
    have hpair := List.pairwise_iff_get.mp hsort ⟨j, hjlen⟩ ⟨i, hi⟩ hji
    rw [hrget, hrfst] at hpair
    exact hpair

theorem rowLastEND_bounds (l : Locus) (states : List (Option (Locus × Nat)))
    (hinv : ∀ st ∈ states, ∀ bl ep, st = some (bl, ep) → bl.contig = l.contig →
      bl.position < l.position) :
    rowLastEND l states ≤ l.position ∧
      (rowLastEND l states = l.position ↔ ∀ st ∈ states, blockStart l st = none) := by
  unfold rowLastEND
  cases hmin : minOpt (states.filterMap (blockStart l)) with
  | none =>
      have hempty := (minOpt_eq_none_iff _).mp hmin
      have hall : ∀ st ∈ states, blockStart l st = none :=
        List.filterMap_eq_nil_iff.mp hempty
      exact ⟨Nat.le_refl _, ⟨fun _ => hall, fun _ => rfl⟩⟩
  | some m =>
      have hm := minOpt_mem hmin
      rcases List.mem_filterMap.mp hm with ⟨st, hstmem, hbs⟩
      have hlt : m < l.position := by
        cases st with
        | none => simp [blockStart] at hbs
        | some p =>
            obtain ⟨bl, ep⟩ := p
            simp only [blockStart] at hbs
            split at hbs
            · rename_i hcond
              have hmeq : m = bl.position := by
                injection hbs with h; exact h.symm
              rw [hmeq]
              exact hinv _ hstmem bl ep rfl hcond.2
            · simp at hbs
      refine ⟨Nat.le_of_lt hlt, ?_, ?_⟩
      · intro heq
        have hml : m = l.position := heq
        omega
      · intro hall
        have hnone : blockStart l st = none := hall st hstmem
        rw [hnone] at hbs
        simp at hbs

/-- C1.  For a sparse matrix whose rows are strictly increasing by locus,
the value `last_END_position` computed by `compute_last_ref_block_end` at
any row is at most the row position; it equals the row position exactly
when no sample has a remembered reference block from a strictly preceding
row still covering the row (`END` at least the row position, on the row
contig); and when the matrix has no `END` field defined anywhere, it equals
the row position at every row. -/
theorem compute_last_ref_block_end_spec (n : Nat) (rows : List ScanRow)
    (hsort : rows.Pairwise (fun a b => lexLt a.1 b.1))
    (i : Nat) (hi : i < rows.length) :
    nthD (compute_last_ref_block_end n rows) i 0 ≤ (rows.get ⟨i, hi⟩).1.position ∧
      (nthD (compute_last_ref_block_end n rows) i 0 = (rows.get ⟨i, hi⟩).1.position ↔
        ∀ st ∈ statesBefore n rows i, blockStart (rows.get ⟨i, hi⟩).1 st = none) ∧
      ((∀ r ∈ rows, ∀ e ∈ r.2, e = none) →
        nthD (compute_last_ref_block_end n rows) i 0 = (rows.get ⟨i, hi⟩).1.position) := by
  have hget? : rows.get? i = some (rows.get ⟨i, hi⟩) := List.get?_eq_get hi
  have hval : nthD (compute_last_ref_block_end n rows) i 0 =
      rowLastEND (rows.get ⟨i, hi⟩).1 (statesBefore n rows i) := by
    apply nthD_of_get?
    rw [compute_last_ref_block_end, lastENDGo_get?, hget?]
    rfl
  have hinv : ∀ st ∈ statesBefore n rows i, ∀ bl ep, st = some (bl, ep) →
      bl.contig = (rows.get ⟨i, hi⟩).1.contig → bl.position < (rows.get ⟨i, hi⟩).1.position := by
    intro st hst bl ep hbl hcontig
    rcases statesBefore_block_lt n rows i hi hsort st hst bl ep hbl with hcl | ⟨_, hpl⟩
    · omega
    · exact hpl
  obtain ⟨hle, hiff⟩ := rowLastEND_bounds (rows.get ⟨i, hi⟩).1 (statesBefore n rows i) hinv
  rw [hval]
  refine ⟨hle, hiff, ?_⟩
  intro hnone
  apply hiff.mpr
  intro st hst
  have hstnone : st = none := by
    rcases mem_foldl_stepStates _ _ hst with hmem | ⟨r, hr, ep, hep, _⟩
    · exact List.eq_of_mem_replicate hmem
    · exact absurd (hnone r (List.mem_of_mem_take hr) (some ep) hep) (by simp)
  rw [hstnone]
  rfl

/-- Concrete instantiation of `compute_last_ref_block_end_spec`: two
samples, a reference block of sample 0 started at position 100 with END 110
covering the second row at position 105. -/
theorem compute_last_ref_block_end_spec_witness :
    nthD (compute_last_ref_block_end 2
        [(⟨0, 100⟩, [some 110, none]), (⟨0, 105⟩, [none, none]), (⟨0, 120⟩, [none, some 130])]) 1 0
      ≤ (([(⟨0, 100⟩, [some 110, none]), (⟨0, 105⟩, [none, none]),
          (⟨0, 120⟩, [none, some 130])] : List ScanRow).get ⟨1, by decide⟩).1.position ∧
    (nthD (compute_last_ref_block_end 2
        [(⟨0, 100⟩, [some 110, none]), (⟨0, 105⟩, [none, none]), (⟨0, 120⟩, [none, some 130])]) 1 0
        = (([(⟨0, 100⟩, [some 110, none]), (⟨0, 105⟩, [none, none]),
            (⟨0, 120⟩, [none, some 130])] : List ScanRow).get ⟨1, by decide⟩).1.position ↔
      ∀ st ∈ statesBefore 2
          [(⟨0, 100⟩, [some 110, none]), (⟨0, 105⟩, [none, none]), (⟨0, 120⟩, [none, some 130])] 1,
        blockStart (([(⟨0, 100⟩, [some 110, none]), (⟨0, 105⟩, [none, none]),
            (⟨0, 120⟩, [none, some 130])] : List ScanRow).get ⟨1, by decide⟩).1 st = none) ∧
    ((∀ r ∈ ([(⟨0, 100⟩, [some 110, none]), (⟨0, 105⟩, [none, none]),
          (⟨0, 120⟩, [none, some 130])] : List ScanRow), ∀ e ∈ r.2, e = none) →
      nthD (compute_last_ref_block_end 2
          [(⟨0, 100⟩, [some 110, none]), (⟨0, 105⟩, [none, none]), (⟨0, 120⟩, [none, some 130])]) 1 0
        = (([(⟨0, 100⟩, [some 110, none]), (⟨0, 105⟩, [none, none]),
            (⟨0, 120⟩, [none, some 130])] : List ScanRow).get ⟨1, by decide⟩).1.position) :=
  compute_last_ref_block_end_spec 2
    [(⟨0, 100⟩, [some 110, none]), (⟨0, 105⟩, [none, none]), (⟨0, 120⟩, [none, some 130])]
    (by decide) 1 (by decide)

/-! ## Targeted densification engine (`densify_sites`)

The source annotates each target site with the interval
`hl.locus_interval(contig, last_END_position, end=position, includes_end=True)`,
where `last_END_position` is looked up in the scan output table; a missing
lookup propagates to a missing interval, and sites with a missing interval
are filtered out.  Rows of the matrix are then restricted to the computed
intervals (by interval-keyed semi-join, or by `hl.filter_intervals` over the
collected interval list), densified with `hl.experimental.densify`, and
finally restricted to loci present in the filtered sites table. -/

/-- A sparse matrix entry carrying the fields relevant to densification: an
optional reference-block end and a depth payload standing for the remaining
entry fields. -/
structure Entry where
  endPos : Option Nat
  dp : Nat
deriving DecidableEq, Repr

/-- A sparse matrix row: locus plus one optional entry per sample. -/
abbrev DRow := Locus × List (Option Entry)

/-- Keyed-table lookup by locus (the semantics of `table[key]` in the
source: the value when the key is present, missing otherwise). -/
def tableLookup (t : List (Locus × Nat)) (l : Locus) : Option Nat :=
  (t.find? (fun kv => decide (kv.1 = l))).map Prod.snd

/-- The filtered sites table of `densify_sites`: each surviving target
carries its query interval `[last_END_position, position]` (contig-scoped,
end-inclusive); targets whose `last_END_position` lookup is missing have a
missing interval and are dropped by `filter(hl.is_defined(interval))`. -/
def sites_with_intervals (sites : List Locus) (lastEND : List (Locus × Nat)) :
    List (Locus × Nat × Nat) :=
  sites.filterMap (fun s => (tableLookup lastEND s).map (fun st => (s, st, s.position)))

/-- Membership of a locus in a contig-scoped interval with inclusive start
and end, the semantics of the intervals built by `densify_sites`. -/
def interval_contains_locus (contig a b : Nat) (l : Locus) : Bool :=
  decide (l.contig = contig) && decide (a ≤ l.position) && decide (l.position ≤ b)

/-- Model of `hl.filter_intervals`: keep the rows whose locus lies in at
least one of the given intervals. -/
def filter_intervals (ivs : List (Nat × Nat × Nat)) (rows : List DRow) : List DRow :=
  rows.filter (fun r => ivs.any (fun iv => interval_contains_locus iv.1 iv.2.1 iv.2.2 r.1))

/-- One row of `hl.experimental.densify`: a missing entry is filled from
the most recent non-missing entry of the same sample when that entry is a
reference block still covering the current locus. -/
def densifyFill (l : Locus) (states : List (Option (Locus × Entry)))
    (es : List (Option Entry)) : List (Option Entry) :=
  List.zipWith
    (fun st e =>
      match e with
      | some en => some en
      | none =>
          match st with
          | some (bl, ben) =>
              match ben.endPos with
              | some ep =>
                  if l.position ≤ ep ∧ bl.contig = l.contig then some ben else none
              | none => none
          | none => none)
    states es

/-- The `hl.scan._prev_nonnull` state update used by densify: any
non-missing entry replaces the remembered (locus, entry) pair. -/
def densifyStep (states : List (Option (Locus × Entry))) (row : DRow) :
    List (Option (Locus × Entry)) :=
  List.zipWith
    (fun st e =>
      match e with
      | some en => some (row.1, en)
      | none => st)
    states row.2

/-- The densify loop: fill each row from the states of strictly preceding
rows, then fold the row into the states.  `hl.experimental.densify` never
creates rows, it only fills entries of existing rows. -/
def densifyGo : List (Option (Locus × Entry)) → List DRow → List DRow
  | _, [] => []
  | states, (l, es) :: rest =>
      (l, densifyFill l states es) :: densifyGo (densifyStep states (l, es)) rest

/-- Model of `hl.experimental.densify` over a localized row list. -/
def densify (rows : List DRow) : List DRow :=
  densifyGo [] rows

/-- The interval-keyed semi-join membership test of `densify_sites`:
`hl.is_defined(sites_ht.key_by(interval)[locus])`, true when the locus lies
in the query interval of at least one surviving target. -/
def site_interval_pred (sitesI : List (Locus × Nat × Nat)) (l : Locus) : Bool :=
  (sitesI.find? (fun si => interval_contains_locus si.1.contig si.2.1 si.2.2 l)).isSome

/-- The final row restriction of `densify_sites`:
`hl.is_defined(sites_ht[locus])` against the filtered sites table. -/
def site_target_pred (sitesI : List (Locus × Nat × Nat)) (l : Locus) : Bool :=
  (sitesI.find? (fun si => decide (si.1 = l))).isSome

/-- Model of `densify_sites`.  `semi_join_rows` selects between the
interval-keyed semi-join row filter and the `hl.filter_intervals` path over
the collected interval list; both are followed by densification and the
final restriction to loci of the filtered sites table. -/
def densify_sites (mt : List DRow) (sites : List Locus) (lastEND : List (Locus × Nat))
    (semi_join_rows : Bool) : List DRow :=
  let sitesI := sites_with_intervals sites lastEND
  let mt1 :=
    if semi_join_rows then
      mt.filter (fun r => site_interval_pred sitesI r.1)
    else
      filter_intervals (sitesI.map (fun si => (si.1.contig, si.2.1, si.2.2))) mt
  let mt2 := densify mt1
  mt2.filter (fun r => site_target_pred sitesI r.1)

theorem densifyGo_map_fst (states : List (Option (Locus × Entry))) (rows : List DRow) :
    (densifyGo states rows).map Prod.fst = rows.map Prod.fst := by
  induction rows generalizing states with
  | nil => rfl
  | cons r rest ih =>
      obtain ⟨l, es⟩ := r
      simp [densifyGo, ih]

theorem densify_map_fst (rows : List DRow) :
    (densify rows).map Prod.fst = rows.map Prod.fst :=
  densifyGo_map_fst [] rows

theorem map_fst_filter (p : Locus → Bool) (rows : List DRow) :
    (rows.filter (fun r => p r.1)).map Prod.fst = (rows.map Prod.fst).filter p := by
  induction rows with
  | nil => rfl
  | cons r rest ih =>
      by_cases hp : p r.1
      · simp [List.filter, hp, ih]
      · simp [List.filter, hp, ih]

theorem any_map_fn {α β : Type _} (f : α → β) (l : List α) (p : β → Bool) :
    (l.map f).any p = l.any (fun a => p (f a)) := by
  induction l with
  | nil => rfl
  | cons x xs ih => simp [List.any, ih]

theorem find?_isSome_any {α : Type _} (l : List α) (p : α → Bool) :
    (l.find? p).isSome = l.any p := by
  induction l with
  | nil => rfl
  | cons x xs ih =>
      by_cases hp : p x
      · simp [List.find?, List.any, hp]
      · simp [List.find?, List.any, hp, ih]

/-- Helper: the two row-selection strategies of `densify_sites` retain the
same rows, hence the whole operation agrees. -/
theorem densify_sites_branch_eq (mt : List DRow) (sites : List Locus)
    (lastEND : List (Locus × Nat)) :
    densify_sites mt sites lastEND false = densify_sites mt sites lastEND true := by
  unfold densify_sites
  simp only [if_true, if_false, Bool.false_eq_true]
  congr 2
  unfold filter_intervals
  apply List.filter_congr
  intro r _
  unfold site_interval_pred
  rw [find?_isSome_any, any_map_fn]

/-- C3.  For a fixed sparse matrix, target site table and
`last_END_position` table, `densify_sites` with the semi-join strategy and
with the interval-list strategy produce identical output rows. -/
theorem densify_sites_strategy_equiv (mt : List DRow) (sites : List Locus)
    (lastEND : List (Locus × Nat)) :
    densify_sites mt sites lastEND true = densify_sites mt sites lastEND false :=
  (densify_sites_branch_eq mt sites lastEND).symm

theorem site_target_imp_interval (sites : List Locus) (lastEND : List (Locus × Nat))
    (hle : ∀ s ∈ sites, ∀ e, tableLookup lastEND s = some e → e ≤ s.position)
    (l : Locus) (h : site_target_pred (sites_with_intervals sites lastEND) l = true) :
    site_interval_pred (sites_with_intervals sites lastEND) l = true := by
  unfold site_target_pred at h
  rcases List.find?_isSome.mp h with ⟨si, hsi, hpred⟩
  have hsil : si.1 = l := of_decide_eq_true hpred
  rcases List.mem_filterMap.mp hsi with ⟨s, hs, hmap⟩
  rcases Option.map_eq_some'.mp hmap with ⟨st, hlook, hsi_eq⟩
  subst hsi_eq
  have hsl : s = l := hsil
  subst hsl
  unfold site_interval_pred
  rw [find?_isSome_any]
  apply List.any_eq_true.mpr
  refine ⟨(s, st, s.position), hsi, ?_⟩
  simp [interval_contains_locus, hle s hs st hlook]

theorem densify_sites_output_rows_semi (mt : List DRow) (sites : List Locus)
    (lastEND : List (Locus × Nat))
    (hle : ∀ s ∈ sites, ∀ e, tableLookup lastEND s = some e → e ≤ s.position) :
    (densify_sites mt sites lastEND true).map Prod.fst
      = (mt.map Prod.fst).filter (site_target_pred (sites_with_intervals sites lastEND)) := by
  have h0 : densify_sites mt sites lastEND true
      = (densify (mt.filter
            (fun r => site_interval_pred (sites_with_intervals sites lastEND) r.1))).filter
          (fun r => site_target_pred (sites_with_intervals sites lastEND) r.1) := rfl
  rw [h0,
    map_fst_filter (site_target_pred (sites_with_intervals sites lastEND)),
    densify_map_fst,
    map_fst_filter (site_interval_pred (sites_with_intervals sites lastEND)),
    List.filter_filter]
  apply List.filter_congr
  intro l _
  cases htgt : site_target_pred (sites_with_intervals sites lastEND) l with
  | false => simp
  | true => simp [site_target_imp_interval sites lastEND hle l htgt]

/-- C2 (amended).  The output rows of `densify_sites` are exactly the rows
of the input matrix whose locus is a target site with a constructible
query interval (a defined `last_END_position` lookup); target sites that do
not occur as explicit rows of the sparse matrix produce no output row, and
targets with a missing lookup are dropped. -/
theorem densify_sites_output_rows (mt : List DRow) (sites : List Locus)
    (lastEND : List (Locus × Nat)) (b : Bool)
    (hle : ∀ s ∈ sites, ∀ e, tableLookup lastEND s = some e → e ≤ s.position) :
    (densify_sites mt sites lastEND b).map Prod.fst
      = (mt.map Prod.fst).filter (site_target_pred (sites_with_intervals sites lastEND)) := by
  cases b with
  | true => exact densify_sites_output_rows_semi mt sites lastEND hle
  | false =>
      rw [densify_sites_branch_eq]
      exact densify_sites_output_rows_semi mt sites lastEND hle

/-- Instantiation of `densify_sites_output_rows`: a matrix with rows at
positions 100 and 110 of contig 0, target site 110 with
`last_END_position` 100; only the row at 110 survives. -/
theorem densify_sites_output_rows_witness :
    (densify_sites
        [(⟨0, 100⟩, [some ⟨some 120, 7⟩]), (⟨0, 110⟩, [none])]
        [⟨0, 110⟩] [(⟨0, 110⟩, 100)] true).map Prod.fst
      = (([(⟨0, 100⟩, [some ⟨some 120, 7⟩]), (⟨0, 110⟩, [none])] : List DRow).map Prod.fst).filter
          (site_target_pred (sites_with_intervals [⟨0, 110⟩] [(⟨0, 110⟩, 100)])) :=
  densify_sites_output_rows
    [(⟨0, 100⟩, [some ⟨some 120, 7⟩]), (⟨0, 110⟩, [none])]
    [⟨0, 110⟩] [(⟨0, 110⟩, 100)] true (by decide)

/-- C2 (counterexample).  A target site on a valid contig with a defined
`last_END_position` that is not an explicit row of the sparse matrix yields
no output row: the output has 0 rows although the site list has 1 site and
no site was dropped for an unconstructible interval, refuting
output rows = |S| minus dropped entries. -/
theorem densify_sites_counts_counterexample :
    (densify_sites [(⟨0, 100⟩, [some ⟨some 120, 7⟩])] [⟨0, 110⟩] [(⟨0, 110⟩, 100)] true).length = 0
    ∧ ([⟨0, 110⟩] : List Locus).length = 1
    ∧ (([⟨0, 110⟩] : List Locus).filter
        (fun s => (tableLookup [(⟨0, 110⟩, 100)] s).isNone)).length = 0 := by
  decide

/-- C6 (amended).  When the `last_END_position` table has no entry for a
target locus, `densify_sites` does not fail; the interval of that target is
missing, the target is filtered out of the sites table, and no output row
carries that locus. -/
theorem densify_sites_missing_lastEND_dropped (mt : List DRow) (sites : List Locus)
    (lastEND : List (Locus × Nat)) (b : Bool) (s : Locus)
    (h : tableLookup lastEND s = none) :
    ∀ r ∈ densify_sites mt sites lastEND b, r.1 ≠ s := by
  intro r hr heq
  have hfilter : r ∈ (densify_sites mt sites lastEND b) := hr
  have hmem : site_target_pred (sites_with_intervals sites lastEND) r.1 = true := by
    cases b with
    | true => exact (List.mem_filter.mp hfilter).2
    | false => exact (List.mem_filter.mp hfilter).2
  rcases List.find?_isSome.mp hmem with ⟨si, hsi, hpred⟩
  have hsil : si.1 = r.1 := of_decide_eq_true hpred
  rcases List.mem_filterMap.mp hsi with ⟨s', hs', hmap⟩
  rcases Option.map_eq_some'.mp hmap with ⟨st, hlook, hsi_eq⟩
  subst hsi_eq
  have hss : s' = s := by rw [← heq, ← hsil]
  rw [hss] at hlook
  rw [h] at hlook
  exact Option.noConfusion hlook

/-- Instantiation of `densify_sites_missing_lastEND_dropped` with an empty
`last_END_position` table and a target that is an explicit matrix row. -/
theorem densify_sites_missing_lastEND_dropped_witness :
    (⟨0, 100⟩ : Locus) ∉
      (densify_sites [(⟨0, 100⟩, [some ⟨some 120, 7⟩])] [⟨0, 100⟩] [] true).map Prod.fst := by
  intro hmem
  rcases List.mem_map.mp hmem with ⟨r, hr, hre⟩
  exact densify_sites_missing_lastEND_dropped
    [(⟨0, 100⟩, [some ⟨some 120, 7⟩])] [⟨0, 100⟩] [] true ⟨0, 100⟩ rfl r hr hre

/-- C6 (counterexample).  With a missing `last_END_position` entry the
target site is dropped rather than retained: the output of `densify_sites`
is empty even though the site is an explicit row of the input matrix. -/
theorem densify_sites_missing_lastEND_counterexample :
    densify_sites [(⟨0, 100⟩, [some ⟨some 120, 7⟩])] [⟨0, 100⟩] [] true = []
    ∧ ([(⟨0, 100⟩, [some ⟨some 120, 7⟩])] : List DRow).map Prod.fst = [⟨0, 100⟩] := by
  decide

/-! ## Field aggregation pipeline (`_get_info_agg_expr` and friends)

The source builds a Python dictionary of named aggregation expressions from
four field groups (approximate-median, sum, int32 sum and element-wise
array sum), then applies derived-field rules that pop and insert keys.  We
model the dictionary as an association list with Python dict semantics
(assignment updates in place or appends, `pop` removes the key) and model
every aggregation expression by its aggregated value: a rational for the
numeric groups, a list of rationals for the array group.  The floating
point square root used by the MQ rule is an out-of-scope numeric primitive
and is passed as a function parameter, as is `fs_from_sb`. -/

/-- Lookup in a Python-style dictionary modelled as an association list. -/
def dictGet {α : Type _} : List (String × α) → String → Option α
  | [], _ => none
  | (k', v) :: rest, k => if k' = k then some v else dictGet rest k

/-- Python dict assignment: update the key in place when present, append
the pair otherwise. -/
def dictSet {α : Type _} : List (String × α) → String → α → List (String × α)
  | [], k, v => [(k, v)]
  | (k', v') :: rest, k, v =>
      if k' = k then (k', v) :: rest else (k', v') :: dictSet rest k v

/-- Python `dict.pop`: remove the entry for the key. -/
def dictPop {α : Type _} : List (String × α) → String → List (String × α)
  | [], _ => []
  | (k', v') :: rest, k => if k' = k then rest else (k', v') :: dictPop rest k

theorem dictGet_dictSet_self {α : Type _} (d : List (String × α)) (k : String) (v : α) :
    dictGet (dictSet d k v) k = some v := by
  induction d with
  | nil => simp [dictSet, dictGet]
  | cons kv rest ih =>
      obtain ⟨k', v'⟩ := kv
      by_cases hk : k' = k
      · simp [dictSet, dictGet, hk]
      · simp [dictSet, dictGet, hk, ih]

theorem dictGet_dictSet_ne {α : Type _} (d : List (String × α)) (k k' : String) (v : α)
    (h : k' ≠ k) : dictGet (dictSet d k v) k' = dictGet d k' := by
  induction d with
  | nil => simp [dictSet, dictGet, Ne.symm h]
  | cons kv rest ih =>
      obtain ⟨k0, v0⟩ := kv
      by_cases hk : k0 = k
      · subst hk
        simp [dictSet, dictGet, Ne.symm h]
      · simp [dictSet, dictGet, hk, ih]

theorem dictGet_dictPop_ne {α : Type _} (d : List (String × α)) (k k' : String)
    (h : k' ≠ k) : dictGet (dictPop d k) k' = dictGet d k' := by
  induction d with
  | nil => simp [dictPop]
  | cons kv rest ih =>
      obtain ⟨k0, v0⟩ := kv
      by_cases hk : k0 = k
      · subst hk
        simp [dictPop, dictGet, Ne.symm h]
      · simp [dictPop, dictGet, hk, ih]

theorem dictGet_eq_none_of_not_mem {α : Type _} (d : List (String × α)) (k : String)
    (h : k ∉ d.map Prod.fst) : dictGet d k = none := by
  induction d with
  | nil => rfl
  | cons kv rest ih =>
      obtain ⟨k0, v0⟩ := kv
      simp only [List.map_cons, List.mem_cons] at h
      push_neg at h
      simp only [dictGet, if_neg (fun he : k0 = k => h.1 he.symm)]
      exact ih h.2

theorem dictGet_dictPop_self {α : Type _} (d : List (String × α)) (k : String)
    (h : (d.map Prod.fst).Nodup) : dictGet (dictPop d k) k = none := by
  induction d with
  | nil => rfl
  | cons kv rest ih =>
      obtain ⟨k0, v0⟩ := kv
      simp only [List.map_cons, List.nodup_cons] at h
      by_cases hk : k0 = k
      · subst hk
        simp only [dictPop, if_pos rfl]
        exact dictGet_eq_none_of_not_mem rest k0 h.1
      · simp only [dictPop, if_neg hk, dictGet, if_neg hk]
        exact ih h.2

theorem mem_keys_dictSet {α : Type _} (d : List (String × α)) (k k' : String) (v : α)
    (h : k' ∈ (dictSet d k v).map Prod.fst) : k' = k ∨ k' ∈ d.map Prod.fst := by
  induction d with
  | nil => simpa [dictSet] using h
  | cons kv rest ih =>
      obtain ⟨k0, v0⟩ := kv
      by_cases hk : k0 = k
      · simp only [dictSet, if_pos hk] at h
        right
        simpa using h
      · simp only [dictSet, if_neg hk, List.map_cons, List.mem_cons] at h
        rcases h with h0 | h1
        · right; simp [h0]
        · rcases ih h1 with h2 | h3
          · left; exact h2
          · right; simp [h3]

theorem dictSet_keys_nodup {α : Type _} (d : List (String × α)) (k : String) (v : α)
    (h : (d.map Prod.fst).Nodup) : ((dictSet d k v).map Prod.fst).Nodup := by
  induction d with
  | nil => simp [dictSet]
  | cons kv rest ih =>
      obtain ⟨k0, v0⟩ := kv
      simp only [List.map_cons, List.nodup_cons] at h
      by_cases hk : k0 = k
      · simp only [dictSet, if_pos hk, List.map_cons, List.nodup_cons]
        exact ⟨h.1, h.2⟩
      · simp only [dictSet, if_neg hk, List.map_cons, List.nodup_cons]
        refine ⟨?_, ih h.2⟩
        intro hmem
        rcases mem_keys_dictSet rest k k0 v hmem with h0 | h1
        · exact hk h0
        · exact h.1 h1

theorem str_append_ne (p : String) {a b : String} (h : a ≠ b) : p ++ a ≠ p ++ b := by
  intro hab
  apply h
  have hdata := congrArg String.data hab
  simp only [String.data_append] at hdata
  exact String.ext (List.append_cancel_left hdata)

/-- An aggregated value in the plan dictionary: numeric aggregations yield
a number, element-wise array aggregations yield an array. -/
inductive AggVal where
  | num : ℚ → AggVal
  | arr : List ℚ → AggVal
deriving DecidableEq, Repr

/-- The aggregation plan dictionary, keyed by output field name. -/
abbrev AggDict := List (String × AggVal)

/-- Conversion of a numeric value to a 32-bit style integer: truncation
toward zero, the behaviour of `hl.int32` on a float (wrap-around of values
beyond 32 bits is not modelled; the claims do not exercise it). -/
def int32trunc (q : ℚ) : Int := if 0 ≤ q then ⌊q⌋ else ⌈q⌉

/-- Indexing an aggregated value, the semantics of `mq_tuple[i]` in the
source.  Indexing a numeric value or out of bounds would raise in the
source; it is defaulted here and never exercised by well-typed plans. -/
def aggIdx (t : AggVal) (i : Nat) : ℚ :=
  match t with
  | AggVal.arr l => nthD l i 0
  | AggVal.num q => q

/-- The numeric content of an aggregated value; an array value here would
be a type error in the source and is defaulted. -/
def aggNum (t : AggVal) : ℚ :=
  match t with
  | AggVal.num q => q
  | AggVal.arr l => nthD l 0 0

/-- The array content of an aggregated value; a numeric value here would
be a type error in the source and is defaulted. -/
def aggArr (t : AggVal) : List ℚ :=
  match t with
  | AggVal.arr l => l
  | AggVal.num _ => []

/-- The base aggregation plan of `_get_info_agg_expr`: the four field
groups are inserted in source order (median, sum, int32 sum, array sum),
each key prefixed (the `AS_` prefix in the allele-specific mode, empty at
site level).  Values are the aggregated results: the group dictionaries
map each requested name to the aggregate of its resolved expression. -/
def base_agg_expr (sumF i32F medF : List (String × ℚ)) (arrF : List (String × List ℚ))
    (p : String) : AggDict :=
  arrF.foldl (fun d kv => dictSet d (p ++ kv.1) (AggVal.arr kv.2))
    (i32F.foldl (fun d kv => dictSet d (p ++ kv.1) (AggVal.num ((int32trunc kv.2 : Int) : ℚ)))
      (sumF.foldl (fun d kv => dictSet d (p ++ kv.1) (AggVal.num kv.2))
        (medF.foldl (fun d kv => dictSet d (p ++ kv.1) (AggVal.num kv.2)) [])))

/-- The MQ derived-field rule: if `RAW_MQandDP` is in the plan, pop it and
insert `MQ = sqrt(t[0]/t[1])` guarded by `t[1] > 0`, else if both `RAW_MQ`
and `MQ_DP` are present, pop both and insert `MQ = sqrt(MQ_DP/RAW_MQ)`
guarded by `RAW_MQ > 0`; otherwise leave the plan unchanged. -/
def mq_rule (sq : ℚ → ℚ) (p : String) (d : AggDict) : AggDict :=
  match dictGet d (p ++ "RAW_MQandDP") with
  | some t =>
      dictSet (dictPop d (p ++ "RAW_MQandDP")) (p ++ "MQ")
        (AggVal.num (if 0 < aggIdx t 1 then sq (aggIdx t 0 / aggIdx t 1) else 0))
  | none =>
      match dictGet d (p ++ "RAW_MQ"), dictGet d (p ++ "MQ_DP") with
      | some rawMQ, some mqDP =>
          dictSet (dictPop (dictPop d (p ++ "MQ_DP")) (p ++ "RAW_MQ")) (p ++ "MQ")
            (AggVal.num (if 0 < aggNum rawMQ then sq (aggNum mqDP / aggNum rawMQ) else 0))
      | _, _ => d

/-- The QD derived-field rule: when both `VarDP` and `QUALapprox` are in
the plan, recompute `var_dp` from the int32-sum group (the source indexes
`int32_sum_agg_fields['VarDP']` directly, raising a `KeyError` when the
name is missing there) and insert `QD = QUALapprox/var_dp` guarded by
`var_dp > 0`. -/
def qd_rule (i32F : List (String × ℚ)) (p : String) (d : AggDict) : Except String AggDict :=
  if ((dictGet d (p ++ "VarDP")).isSome && (dictGet d (p ++ "QUALapprox")).isSome) then
    match dictGet i32F "VarDP" with
    | none => Except.error "KeyError: VarDP"
    | some v =>
        let var_dp : ℚ := ((int32trunc v : Int) : ℚ)
        Except.ok (dictSet d (p ++ "QD")
          (AggVal.num
            (if 0 < var_dp then aggNum ((dictGet d (p ++ "QUALapprox")).getD (AggVal.num 0)) / var_dp
             else 0)))
  else Except.ok d

/-- The SB cast rule: when `SB` is in the plan, cast its elements to int32
for the downstream FS computation. -/
def sb_rule (p : String) (d : AggDict) : AggDict :=
  match dictGet d (p ++ "SB") with
  | some (AggVal.arr sb) =>
      dictSet d (p ++ "SB") (AggVal.arr (sb.map (fun x => ((int32trunc x : Int) : ℚ))))
  | some (AggVal.num _) => d
  | none => d

/-- Model of `_get_info_agg_expr` at the level of aggregated values: build
the base plan from the four field groups, then apply the MQ, QD and SB
derived-field rules in source order. -/
def _get_info_agg_expr (sq : ℚ → ℚ) (sumF i32F medF : List (String × ℚ))
    (arrF : List (String × List ℚ)) (p : String) : Except String AggDict :=
  match qd_rule i32F p (mq_rule sq p (base_agg_expr sumF i32F medF arrF p)) with
  | Except.error e => Except.error e
  | Except.ok d => Except.ok (sb_rule p d)

/-- The tail of `get_site_info_expr` once the plan is built and the `SB`
aggregate found: add `FS`, build the struct over the non-`DP` keys and
re-annotate `DP` when it is in the plan (`agg2` and `info` of the source
are inlined). -/
def site_info_annotate (fs : List ℚ → ℚ) (agg : AggDict) (sbv : AggVal) :
    Except String AggDict :=
  match dictGet (dictSet agg "FS" (AggVal.num (fs (aggArr sbv)))) "DP" with
  | some dv =>
      Except.ok (dictSet
        ((dictSet agg "FS" (AggVal.num (fs (aggArr sbv)))).filter
          (fun kv => decide (kv.1 ≠ "DP")))
        "DP" dv)
  | none =>
      Except.ok ((dictSet agg "FS" (AggVal.num (fs (aggArr sbv)))).filter
        (fun kv => decide (kv.1 ≠ "DP")))

/-- The `FS` step of `get_site_info_expr`: `fs_from_sb(agg_expr['SB'])`
raises a `KeyError` when `SB` is not in the plan. -/
def site_info_pack (fs : List ℚ → ℚ) (agg : AggDict) : Except String AggDict :=
  match dictGet agg "SB" with
  | none => Except.error "KeyError: SB"
  | some sbv => site_info_annotate fs agg sbv

/-- Model of `get_site_info_expr`: run the aggregation plan with an empty
prefix, compute `FS = fs_from_sb(agg_expr['SB'])` (a `KeyError` when `SB`
is not in the plan), restrict the struct to the non-`DP` keys over non-ref
genotypes, and re-annotate `DP` when requested. -/
def get_site_info_expr (sq : ℚ → ℚ) (fs : List ℚ → ℚ)
    (sumF i32F medF : List (String × ℚ)) (arrF : List (String × List ℚ)) :
    Except String AggDict :=
  match _get_info_agg_expr sq sumF i32F medF arrF "" with
  | Except.error e => Except.error e
  | Except.ok agg => site_info_pack fs agg

theorem foldl_preserves_nodup {α β : Type _} (l : List β)
    (f : List (String × α) → β → List (String × α))
    (hf : ∀ d kv, (d.map Prod.fst).Nodup → (((f d kv)).map Prod.fst).Nodup) :
    ∀ d : List (String × α), (d.map Prod.fst).Nodup →
      ((l.foldl f d).map Prod.fst).Nodup := by
  induction l with
  | nil => intro d h; exact h
  | cons x xs ih => intro d h; exact ih _ (hf d x h)

theorem base_agg_expr_keys_nodup (sumF i32F medF : List (String × ℚ))
    (arrF : List (String × List ℚ)) (p : String) :
    ((base_agg_expr sumF i32F medF arrF p).map Prod.fst).Nodup := by
  unfold base_agg_expr
  apply foldl_preserves_nodup _ _ (fun d kv h => dictSet_keys_nodup d _ _ h)
  apply foldl_preserves_nodup _ _ (fun d kv h => dictSet_keys_nodup d _ _ h)
  apply foldl_preserves_nodup _ _ (fun d kv h => dictSet_keys_nodup d _ _ h)
  apply foldl_preserves_nodup _ _ (fun d kv h => dictSet_keys_nodup d _ _ h)
  simp

theorem dictGet_sb_rule_ne (p : String) (d : AggDict) (k : String)
    (h : k ≠ p ++ "SB") : dictGet (sb_rule p d) k = dictGet d k := by
  unfold sb_rule
  split
  · exact dictGet_dictSet_ne d (p ++ "SB") k _ h
  · rfl
  · rfl

theorem dictGet_qd_rule_ne (i32F : List (String × ℚ)) (p : String) (d d2 : AggDict)
    (k : String) (h : k ≠ p ++ "QD") (hqd : qd_rule i32F p d = Except.ok d2) :
    dictGet d2 k = dictGet d k := by
  unfold qd_rule at hqd
  by_cases hc : ((dictGet d (p ++ "VarDP")).isSome && (dictGet d (p ++ "QUALapprox")).isSome) = true
  · rw [if_pos hc] at hqd
    cases hv : dictGet i32F "VarDP" with
    | none => rw [hv] at hqd; exact absurd hqd (by simp)
    | some v =>
        rw [hv] at hqd
        injection hqd with h'
        rw [← h']
        exact dictGet_dictSet_ne d (p ++ "QD") k _ h
  · rw [if_neg hc] at hqd
    injection hqd with h'
    rw [← h']

/-- C8.  When the aggregated two-element array field `RAW_MQandDP` is in
the base aggregation plan, the pipeline removes it and adds `MQ`, computed
as `sqrt(a[0]/a[1])` when the aggregated `a[1] > 0` and as `0` otherwise;
in particular an all-zero aggregate produces `MQ = 0` with no division by
zero. -/
theorem raw_mq_and_dp_rule (sq : ℚ → ℚ) (sumF i32F medF : List (String × ℚ))
    (arrF : List (String × List ℚ)) (p : String) (a0 a1 : ℚ)
    (h1 : dictGet (base_agg_expr sumF i32F medF arrF p) (p ++ "RAW_MQandDP")
      = some (AggVal.arr [a0, a1]))
    (out : AggDict)
    (h2 : _get_info_agg_expr sq sumF i32F medF arrF p = Except.ok out) :
    dictGet out (p ++ "RAW_MQandDP") = none ∧
      dictGet out (p ++ "MQ") = some (AggVal.num (if 0 < a1 then sq (a0 / a1) else 0)) := by
  have hne1 : (p ++ "RAW_MQandDP") ≠ (p ++ "MQ") := str_append_ne p (by decide)
  have hne2 : (p ++ "RAW_MQandDP") ≠ (p ++ "QD") := str_append_ne p (by decide)
  have hne3 : (p ++ "RAW_MQandDP") ≠ (p ++ "SB") := str_append_ne p (by decide)
  have hne4 : (p ++ "MQ") ≠ (p ++ "QD") := str_append_ne p (by decide)
  have hne5 : (p ++ "MQ") ≠ (p ++ "SB") := str_append_ne p (by decide)
  have hd1 : mq_rule sq p (base_agg_expr sumF i32F medF arrF p)
      = dictSet (dictPop (base_agg_expr sumF i32F medF arrF p) (p ++ "RAW_MQandDP"))
          (p ++ "MQ") (AggVal.num (if 0 < a1 then sq (a0 / a1) else 0)) := by
    unfold mq_rule
    rw [h1]
    rfl
  unfold _get_info_agg_expr at h2
  rw [hd1] at h2
  cases hqd : qd_rule i32F p
      (dictSet (dictPop (base_agg_expr sumF i32F medF arrF p) (p ++ "RAW_MQandDP"))
        (p ++ "MQ") (AggVal.num (if 0 < a1 then sq (a0 / a1) else 0))) with
  | error e =>
      rw [hqd] at h2
      exact absurd h2 (by simp)
  | ok d2 =>
      rw [hqd] at h2
      injection h2 with h'
      rw [← h']
      constructor
      · rw [dictGet_sb_rule_ne p d2 _ hne3,
          dictGet_qd_rule_ne i32F p _ d2 _ hne2 hqd,
          dictGet_dictSet_ne _ (p ++ "MQ") _ _ hne1,
          dictGet_dictPop_self _ _ (base_agg_expr_keys_nodup sumF i32F medF arrF p)]
      · rw [dictGet_sb_rule_ne p d2 _ hne5,
          dictGet_qd_rule_ne i32F p _ d2 _ hne4 hqd,
          dictGet_dictSet_self]

/-- Instantiation of `raw_mq_and_dp_rule` at the aggregated value
`RAW_MQandDP = [0, 0]`: the plan keeps no `RAW_MQandDP` key and `MQ`
evaluates to `0` because the guard `a[1] > 0` fails. -/
theorem raw_mq_and_dp_rule_witness :
    dictGet [("MQ", AggVal.num 0)] ("" ++ "RAW_MQandDP") = none ∧
      dictGet [("MQ", AggVal.num 0)] ("" ++ "MQ")
        = some (AggVal.num (if 0 < (0 : ℚ) then (fun q : ℚ => q) ((0 : ℚ) / 0) else 0)) :=
  raw_mq_and_dp_rule (fun q : ℚ => q) [] [] [] [("RAW_MQandDP", [0, 0])] "" 0 0
    (by decide) [("MQ", AggVal.num 0)] rfl

/-! ## Field-name resolution (`_agg_list_to_dict`)

When the aggregation field groups are given as lists of names, the source
resolves each name against the nested `gvcf_info` struct first (when the
matrix has a `gvcf_info` entry field) and then against the top-level entry
fields, the latter taking priority through `dict.update`; it then raises a
`ValueError` listing every name found in neither place.  The entry schema
is modelled by the list of top-level entry field names and the list of
field names of the nested `gvcf_info` struct. -/

/-- Where a requested field name was resolved. -/
inductive FieldSource where
  | entry : String → FieldSource
  | info : String → FieldSource
deriving DecidableEq, Repr

theorem dictGet_isSome_foldl_cond {α : Type _} (val : String → α) (P : String → Prop)
    [DecidablePred P] :
    ∀ (l : List String) (d : List (String × α)) (k : String),
      (dictGet (l.foldl (fun d f => if P f then dictSet d f (val f) else d) d) k).isSome = true
        ↔ ((k ∈ l ∧ P k) ∨ (dictGet d k).isSome = true)
  | [], d, k => by simp
  | f :: fs, d, k => by
      simp only [List.foldl]
      rw [dictGet_isSome_foldl_cond val P fs _ k]
      by_cases hP : P f
      · rw [if_pos hP]
        by_cases hk : f = k
        · subst hk
          constructor
          · intro _; exact Or.inl ⟨List.mem_cons_self f fs, hP⟩
          · intro _; exact Or.inr (by rw [dictGet_dictSet_self]; rfl)
        · rw [dictGet_dictSet_ne d f k (val f) (fun he => hk he.symm)]
          constructor
          · rintro (⟨hm, hp⟩ | hs)
            · exact Or.inl ⟨List.mem_cons_of_mem f hm, hp⟩
            · exact Or.inr hs
          · rintro (⟨hm, hp⟩ | hs)
            · rcases List.mem_cons.mp hm with he | hm'
              · exact absurd he.symm hk
              · exact Or.inl ⟨hm', hp⟩
            · exact Or.inr hs
      · rw [if_neg hP]
        constructor
        · rintro (⟨hm, hp⟩ | hs)
          · exact Or.inl ⟨List.mem_cons_of_mem f hm, hp⟩
          · exact Or.inr hs
        · rintro (⟨hm, hp⟩ | hs)
          · rcases List.mem_cons.mp hm with he | hm'
            · subst he; exact absurd hp hP
            · exact Or.inl ⟨hm', hp⟩
          · exact Or.inr hs

/-- The resolved field dictionary of `_agg_list_to_dict`: the `gvcf_info`
pass (only when the matrix has a `gvcf_info` entry field) followed by the
top-level pass, which overrides on name clashes. -/
def agg_fields_resolved (entryFields gvcfFields fields : List String) :
    List (String × FieldSource) :=
  let out0 : List (String × FieldSource) :=
    if "gvcf_info" ∈ entryFields then
      fields.foldl (fun d f => if f ∈ gvcfFields then dictSet d f (FieldSource.info f) else d) []
    else []
  fields.foldl (fun d f => if f ∈ entryFields then dictSet d f (FieldSource.entry f) else d) out0

/-- Model of `_agg_list_to_dict`: resolve all names, then fail with the
list of all unresolved names when any name is unresolved. -/
def _agg_list_to_dict (entryFields gvcfFields fields : List String) :
    Except (List String) (List (String × FieldSource)) :=
  if (fields.filter (fun f => (dictGet (agg_fields_resolved entryFields gvcfFields fields) f).isNone)).isEmpty
  then Except.ok (agg_fields_resolved entryFields gvcfFields fields)
  else Except.error
    (fields.filter (fun f => (dictGet (agg_fields_resolved entryFields gvcfFields fields) f).isNone))

/-- A requested name resolves when it is a top-level entry field, or when
the matrix has a `gvcf_info` entry field of which it is a member. -/
def resolvable (entryFields gvcfFields : List String) (f : String) : Prop :=
  f ∈ entryFields ∨ ("gvcf_info" ∈ entryFields ∧ f ∈ gvcfFields)

instance (e g : List String) (f : String) : Decidable (resolvable e g f) := by
  unfold resolvable; infer_instance

theorem agg_fields_resolved_isSome (entryFields gvcfFields fields : List String)
    (f : String) (hf : f ∈ fields) :
    (dictGet (agg_fields_resolved entryFields gvcfFields fields) f).isSome = true
      ↔ resolvable entryFields gvcfFields f := by
  unfold agg_fields_resolved resolvable
  rw [dictGet_isSome_foldl_cond FieldSource.entry (fun f => f ∈ entryFields) fields _ f]
  by_cases hg : "gvcf_info" ∈ entryFields
  · rw [if_pos hg,
      dictGet_isSome_foldl_cond FieldSource.info (fun f => f ∈ gvcfFields) fields _ f]
    simp only [hf, true_and, hg]
    simp [dictGet]
  · rw [if_neg hg]
    simp only [hf, true_and]
    simp [dictGet, hg]

/-- C9.  With name-list field groups, resolution succeeds when every
requested name is a top-level entry field or a field of the nested
`gvcf_info` struct, and otherwise raises an error listing every unresolved
name at once rather than failing on only the first. -/
theorem agg_list_to_dict_missing_fields (entryFields gvcfFields fields : List String) :
    ((∀ f ∈ fields, resolvable entryFields gvcfFields f) →
      ∃ d, _agg_list_to_dict entryFields gvcfFields fields = Except.ok d) ∧
    ((∃ f ∈ fields, ¬ resolvable entryFields gvcfFields f) →
      _agg_list_to_dict entryFields gvcfFields fields
        = Except.error (fields.filter
            (fun f => decide (¬ resolvable entryFields gvcfFields f)))) := by
  have hpt : ∀ f ∈ fields,
      ((dictGet (agg_fields_resolved entryFields gvcfFields fields) f).isNone)
        = decide (¬ resolvable entryFields gvcfFields f) := by
    intro f hf
    have hiff := agg_fields_resolved_isSome entryFields gvcfFields fields f hf
    by_cases hr : resolvable entryFields gvcfFields f
    · rcases Option.isSome_iff_exists.mp (hiff.mpr hr) with ⟨v, hv⟩
      rw [hv]
      simp [hr]
    · have hnone : dictGet (agg_fields_resolved entryFields gvcfFields fields) f = none :=
        Option.not_isSome_iff_eq_none.mp (fun hs => hr (hiff.mp hs))
      rw [hnone]
      simp [hr]
  have hfilter : (fields.filter
        (fun f => (dictGet (agg_fields_resolved entryFields gvcfFields fields) f).isNone))
      = fields.filter (fun f => decide (¬ resolvable entryFields gvcfFields f)) :=
    List.filter_congr hpt
  constructor
  · intro hall
    unfold _agg_list_to_dict
    rw [hfilter]
    have hnil : fields.filter (fun f => decide (¬ resolvable entryFields gvcfFields f)) = [] := by
      apply List.filter_eq_nil_iff.mpr
      intro f hf
      simp [hall f hf]
    rw [hnil]
    exact ⟨_, rfl⟩
  · rintro ⟨f, hf, hnr⟩
    unfold _agg_list_to_dict
    rw [hfilter]
    have hmem : f ∈ fields.filter (fun f => decide (¬ resolvable entryFields gvcfFields f)) :=
      List.mem_filter.mpr ⟨hf, by simp [hnr]⟩
    cases hfl : fields.filter (fun f => decide (¬ resolvable entryFields gvcfFields f)) with
    | nil => rw [hfl] at hmem; simp at hmem
    | cons a as => rfl

/-- Instantiation of `agg_list_to_dict_missing_fields`: entry schema with
`DP` and a nested `gvcf_info` holding `QUALapprox`; of the three requested
names both `VarDP` and `SB` are unresolved and both are reported. -/
theorem agg_list_to_dict_missing_fields_witness :
    _agg_list_to_dict ["DP", "gvcf_info"] ["QUALapprox"] ["QUALapprox", "VarDP", "SB"]
      = Except.error ((["QUALapprox", "VarDP", "SB"] : List String).filter
          (fun f => decide (¬ resolvable ["DP", "gvcf_info"] ["QUALapprox"] f))) :=
  (agg_list_to_dict_missing_fields ["DP", "gvcf_info"] ["QUALapprox"]
      ["QUALapprox", "VarDP", "SB"]).2
    ⟨"VarDP", by decide, by decide⟩

theorem empty_append_str (s : String) : "" ++ s = s := by
  apply String.ext
  simp [String.data_append]

theorem dictGet_foldl_preserve {α β : Type _} (l : List β)
    (f : List (String × α) → β → List (String × α)) (k : String)
    (hf : ∀ d x, x ∈ l → dictGet (f d x) k = dictGet d k) (d : List (String × α)) :
    dictGet (l.foldl f d) k = dictGet d k := by
  induction l generalizing d with
  | nil => rfl
  | cons x xs ih =>
      rw [List.foldl]
      rw [ih (fun d' x' hx' => hf d' x' (List.mem_cons_of_mem x hx')) (f d x)]
      exact hf d x (List.mem_cons_self x xs)

theorem dictGet_base_none (sumF i32F medF : List (String × ℚ))
    (arrF : List (String × List ℚ)) (p k : String)
    (h1 : ∀ kv ∈ sumF, p ++ kv.1 ≠ k) (h2 : ∀ kv ∈ i32F, p ++ kv.1 ≠ k)
    (h3 : ∀ kv ∈ medF, p ++ kv.1 ≠ k) (h4 : ∀ kv ∈ arrF, p ++ kv.1 ≠ k) :
    dictGet (base_agg_expr sumF i32F medF arrF p) k = none := by
  unfold base_agg_expr
  rw [dictGet_foldl_preserve arrF _ k
      (fun d kv hkv => dictGet_dictSet_ne d _ k _ (fun he => h4 kv hkv he.symm)),
    dictGet_foldl_preserve i32F _ k
      (fun d kv hkv => dictGet_dictSet_ne d _ k _ (fun he => h2 kv hkv he.symm)),
    dictGet_foldl_preserve sumF _ k
      (fun d kv hkv => dictGet_dictSet_ne d _ k _ (fun he => h1 kv hkv he.symm)),
    dictGet_foldl_preserve medF _ k
      (fun d kv hkv => dictGet_dictSet_ne d _ k _ (fun he => h3 kv hkv he.symm))]
  rfl

theorem dictGet_mq_rule_ne (sq : ℚ → ℚ) (p : String) (d : AggDict) (k : String)
    (h1 : k ≠ p ++ "RAW_MQandDP") (h2 : k ≠ p ++ "RAW_MQ") (h3 : k ≠ p ++ "MQ_DP")
    (h4 : k ≠ p ++ "MQ") :
    dictGet (mq_rule sq p d) k = dictGet d k := by
  unfold mq_rule
  split
  · rw [dictGet_dictSet_ne _ _ _ _ h4, dictGet_dictPop_ne _ _ _ h1]
  · split
    · rw [dictGet_dictSet_ne _ _ _ _ h4, dictGet_dictPop_ne _ _ _ h2,
        dictGet_dictPop_ne _ _ _ h3]
    · rfl

theorem sb_rule_of_none (p : String) (d : AggDict) (h : dictGet d (p ++ "SB") = none) :
    sb_rule p d = d := by
  unfold sb_rule
  rw [h]

theorem dictGet_filter_ne {α : Type _} (d : List (String × α)) (k bad : String)
    (h : k ≠ bad) :
    dictGet (d.filter (fun kv => decide (kv.1 ≠ bad))) k = dictGet d k := by
  induction d with
  | nil => rfl
  | cons kv rest ih =>
      obtain ⟨k0, v0⟩ := kv
      rw [List.filter_cons]
      by_cases hb : k0 = bad
      · have hc : decide ((k0, v0).1 ≠ bad) = false := by simp [hb]
        rw [hc]
        simp only [Bool.false_eq_true, if_false]
        rw [ih]
        show dictGet rest k = dictGet ((k0, v0) :: rest) k
        have hk : k0 ≠ k := by
          intro he
          exact h (by rw [← he, hb])
        simp [dictGet, hk]
      · have hc : decide ((k0, v0).1 ≠ bad) = true := by simp [hb]
        rw [hc]
        simp only [if_true]
        by_cases hk : k0 = k
        · simp [dictGet, hk]
        · show (if k0 = k then some v0
              else dictGet (rest.filter (fun kv => decide (kv.1 ≠ bad))) k)
            = (if k0 = k then some v0 else dictGet rest k)
          rw [if_neg hk, if_neg hk, ih]

/-- C10.  Every successful `get_site_info_expr` call produces a struct
containing `FS` (computed from the `SB` aggregate), and when no `SB`
aggregate was built from the requested field groups the call fails with an
error rather than returning a site-level struct without `FS`. -/
theorem get_site_info_expr_fs_spec (sq : ℚ → ℚ) (fs : List ℚ → ℚ)
    (sumF i32F medF : List (String × ℚ)) (arrF : List (String × List ℚ)) :
    (∀ d, get_site_info_expr sq fs sumF i32F medF arrF = Except.ok d →
      ∃ v, dictGet d "FS" = some v) ∧
    ((∀ kv ∈ sumF, kv.1 ≠ "SB") → (∀ kv ∈ i32F, kv.1 ≠ "SB") →
      (∀ kv ∈ medF, kv.1 ≠ "SB") → (∀ kv ∈ arrF, kv.1 ≠ "SB") →
      ∃ e, get_site_info_expr sq fs sumF i32F medF arrF = Except.error e) := by
  constructor
  · intro d hd
    unfold get_site_info_expr at hd
    cases hpipe : _get_info_agg_expr sq sumF i32F medF arrF "" with
    | error e =>
        rw [hpipe] at hd
        exact Except.noConfusion
          (show (Except.error e : Except String AggDict) = Except.ok d from hd)
    | ok agg =>
        rw [hpipe] at hd
        have hd1 : site_info_pack fs agg = Except.ok d := hd
        unfold site_info_pack at hd1
        cases hsb : dictGet agg "SB" with
        | none =>
            rw [hsb] at hd1
            exact Except.noConfusion
              (show (Except.error "KeyError: SB" : Except String AggDict) = Except.ok d from hd1)
        | some sbv =>
            rw [hsb] at hd1
            have hd2 : site_info_annotate fs agg sbv = Except.ok d := hd1
            unfold site_info_annotate at hd2
            cases hdp : dictGet (dictSet agg "FS" (AggVal.num (fs (aggArr sbv)))) "DP" with
            | some dv =>
                rw [hdp] at hd2
                injection hd2 with h'
                rw [← h']
                refine ⟨AggVal.num (fs (aggArr sbv)), ?_⟩
                rw [dictGet_dictSet_ne _ "DP" "FS" _ (by decide),
                  dictGet_filter_ne _ "FS" "DP" (by decide)]
                exact dictGet_dictSet_self agg "FS" _
            | none =>
                rw [hdp] at hd2
                injection hd2 with h'
                rw [← h']
                refine ⟨AggVal.num (fs (aggArr sbv)), ?_⟩
                rw [dictGet_filter_ne _ "FS" "DP" (by decide)]
                exact dictGet_dictSet_self agg "FS" _
  · intro hs hi hm ha
    have hbase : dictGet (base_agg_expr sumF i32F medF arrF "") "SB" = none := by
      apply dictGet_base_none
      · intro kv hkv he
        exact hs kv hkv (by rw [← empty_append_str kv.1, he])
      · intro kv hkv he
        exact hi kv hkv (by rw [← empty_append_str kv.1, he])
      · intro kv hkv he
        exact hm kv hkv (by rw [← empty_append_str kv.1, he])
      · intro kv hkv he
        exact ha kv hkv (by rw [← empty_append_str kv.1, he])
    have hmq : dictGet (mq_rule sq "" (base_agg_expr sumF i32F medF arrF "")) "SB" = none := by
      rw [dictGet_mq_rule_ne sq "" _ "SB"
        (by rw [empty_append_str]; decide) (by rw [empty_append_str]; decide)
        (by rw [empty_append_str]; decide) (by rw [empty_append_str]; decide)]
      exact hbase
    unfold get_site_info_expr
    unfold _get_info_agg_expr
    cases hqd : qd_rule i32F "" (mq_rule sq "" (base_agg_expr sumF i32F medF arrF "")) with
    | error e => exact ⟨e, rfl⟩
    | ok d2 =>
        have hd2 : dictGet d2 "SB" = none := by
          rw [dictGet_qd_rule_ne i32F "" _ d2 "SB" (by rw [empty_append_str]; decide) hqd]
          exact hmq
        have hsbeq : sb_rule "" d2 = d2 :=
          sb_rule_of_none "" d2 (by rw [empty_append_str]; exact hd2)
        refine ⟨"KeyError: SB", ?_⟩
        show site_info_pack fs (sb_rule "" d2) = Except.error "KeyError: SB"
        rw [hsbeq]
        unfold site_info_pack
        rw [hd2]

/-- Instantiation of `get_site_info_expr_fs_spec`: requesting only a
`QUALapprox` sum and no `SB` array aggregate makes the call fail. -/
theorem get_site_info_expr_fs_spec_witness :
    ∃ e, get_site_info_expr (fun q : ℚ => q) (fun _ => 0) [("QUALapprox", 5)] [] [] []
      = Except.error e :=
  (get_site_info_expr_fs_spec (fun q : ℚ => q) (fun _ => 0) [("QUALapprox", 5)] [] [] []).2
    (by decide) (by decide) (by decide) (by decide)

/-! ## Coverage statistics engine (`compute_coverage_stats`)

Only present in the `gnomad_hail` copy of the module.  After the outer
join against the reference table and densification, the per-row statistics
aggregate the per-sample `DP` values.  The threshold fractions are
computed from a counter of `min(max_bin, DP)` (missing depth counted as 0),
a reverse walk over the sorted bins accumulating the counter mass between
consecutive bins, a cumulative sum, and a division by the sample count.
The per-row model below takes the per-sample optional depths of one row. -/

/-- The bounded depth counter
`hl.agg.counter(hl.or_else(hl.min(max_coverage_bin, DP), 0))`: how many
samples have clipped depth exactly `d`. -/
def coverage_counter_expr (maxBin : Nat) (depths : List (Option Nat)) (d : Nat) : Nat :=
  (depths.map (fun dp => (dp.map (fun x => Nat.min maxBin x)).getD 0)).count d

/-- Running prefix sums with an accumulator. -/
def cumsumFrom (acc : Nat) : List Nat → List Nat
  | [] => []
  | x :: xs => (acc + x) :: cumsumFrom (acc + x) xs

/-- Model of `hl.cumulative_sum`: inclusive prefix sums. -/
def cumulative_sum (l : List Nat) : List Nat := cumsumFrom 0 l

/-- The `count_array_expr` of the source: the count at the top bin,
followed for each bin index from `len-1` down to `1` by the counter mass
over `hl.range(bins[i-1], bins[i])`, all run through the cumulative sum.
Sample counts at increasing array index therefore belong to decreasing
thresholds. -/
def count_array_expr (bins : List Nat) (depths : List (Option Nat)) : List Nat :=
  cumulative_sum
    ([coverage_counter_expr (nthD bins (bins.length - 1) 0) depths
        (nthD bins (bins.length - 1) 0)]
      ++ ((List.range' 1 (bins.length - 1)).reverse.map
        (fun i =>
          ((List.range' (nthD bins (i - 1) 0) (nthD bins i 0 - nthD bins (i - 1) 0)).map
            (fun j => coverage_counter_expr (nthD bins (bins.length - 1) 0) depths j)).sum)))

/-- The per-row `over_x` output of `compute_coverage_stats`: the source
sorts the bins, then zips the reversed bin index range with the sorted
bins and divides the matching `count_array_expr` entry by the sample
count.  Returns the list of (threshold, fraction) pairs. -/
def compute_coverage_stats_over (bins0 : List Nat) (depths : List (Option Nat)) :
    List (Nat × ℚ) :=
  (List.zip (List.range (List.insertionSort (· ≤ ·) bins0).length).reverse
      (List.insertionSort (· ≤ ·) bins0)).map
    (fun ix => (ix.2,
      ((nthD (count_array_expr (List.insertionSort (· ≤ ·) bins0) depths) ix.1 0 : Nat) : ℚ)
        / (depths.length : ℚ)))

theorem cumsumFrom_length (acc : Nat) (l : List Nat) :
    (cumsumFrom acc l).length = l.length := by
  induction l generalizing acc with
  | nil => rfl
  | cons x xs ih => simp [cumsumFrom, ih]

theorem cumsumFrom_nthD (l : List Nat) : ∀ (acc j : Nat), j < l.length →
    nthD (cumsumFrom acc l) j 0 = acc + (l.take (j + 1)).sum := by
  induction l with
  | nil => intro acc j h; simp at h
  | cons x xs ih =>
      intro acc j h
      cases j with
      | zero => simp [cumsumFrom, nthD]
      | succ j' =>
          simp only [cumsumFrom, nthD]
          rw [ih (acc + x) j' (by simpa using h)]
          simp [List.take, Nat.add_assoc]

theorem cumulative_sum_mono (l : List Nat) (a b : Nat) (hab : a ≤ b) (hb : b < l.length) :
    nthD (cumulative_sum l) a 0 ≤ nthD (cumulative_sum l) b 0 := by
  unfold cumulative_sum
  rw [cumsumFrom_nthD l 0 a (lt_of_le_of_lt hab hb), cumsumFrom_nthD l 0 b hb]
  have hsub : (l.take (b + 1)).take (a + 1) = l.take (a + 1) := by
    rw [List.take_take, min_eq_left (Nat.succ_le_succ hab)]
  have hle : (l.take (a + 1)).sum ≤ (l.take (b + 1)).sum := by
    rw [← hsub]
    calc ((l.take (b + 1)).take (a + 1)).sum
        ≤ ((l.take (b + 1)).take (a + 1)).sum + ((l.take (b + 1)).drop (a + 1)).sum :=
          Nat.le_add_right _ _
      _ = (l.take (b + 1)).sum := by rw [← List.sum_append, List.take_append_drop]
  omega

theorem count_array_expr_length (bins : List Nat) (depths : List (Option Nat))
    (h : bins ≠ []) : (count_array_expr bins depths).length = bins.length := by
  unfold count_array_expr cumulative_sum
  rw [cumsumFrom_length]
  have hpos : 0 < bins.length := List.length_pos.mpr h
  simp [List.length_range']
  omega

theorem nthD_zip_map {α β γ : Type _} (f : α × β → γ) (l1 : List α) (l2 : List β)
    (i : Nat) (d1 : α) (d2 : β) (dg : γ) (h1 : i < l1.length) (h2 : i < l2.length) :
    nthD ((List.zip l1 l2).map f) i dg = f (nthD l1 i d1, nthD l2 i d2) := by
  induction l1 generalizing l2 i with
  | nil => simp at h1
  | cons x xs ih =>
      cases l2 with
      | nil => simp at h2
      | cons y ys =>
          cases i with
          | zero => rfl
          | succ i' =>
              show nthD ((List.zip xs ys).map f) i' dg = f (nthD xs i' d1, nthD ys i' d2)
              exact ih ys i' (by simpa using h1) (by simpa using h2)

theorem nthD_range_reverse (n i : Nat) (hi : i < n) :
    nthD (List.range n).reverse i 0 = n - 1 - i := by
  induction n generalizing i with
  | zero => omega
  | succ n' ih =>
      rw [List.range_succ, List.reverse_append]
      cases i with
      | zero => simp [nthD]
      | succ i' =>
          have hstep : nthD ([n'].reverse ++ (List.range n').reverse) (i' + 1) 0
              = nthD (List.range n').reverse i' 0 := by
            simp only [List.reverse_singleton, List.singleton_append, nthD]
            rfl
          rw [hstep, ih i' (by omega)]
          omega

theorem count_array_expr_mono (bins : List Nat) (depths : List (Option Nat)) (a b : Nat)
    (hab : a ≤ b) (hb : b < (count_array_expr bins depths).length) :
    nthD (count_array_expr bins depths) a 0 ≤ nthD (count_array_expr bins depths) b 0 := by
  unfold count_array_expr at hb ⊢
  unfold cumulative_sum at hb
  rw [cumsumFrom_length] at hb
  exact cumulative_sum_mono _ a b hab hb

/-- C7.  For every input row and ascending threshold list, the per-row
threshold fractions reported by `compute_coverage_stats` are monotonically
non-increasing in the threshold: the fraction at a larger threshold index
never exceeds the fraction at a smaller one. -/
theorem coverage_fraction_monotone (bins : List Nat) (depths : List (Option Nat))
    (hasc : bins.Pairwise (· < ·)) (j k : Nat) (hjk : j ≤ k) (hk : k < bins.length) :
    (nthD (compute_coverage_stats_over bins depths) k (0, 0)).2
      ≤ (nthD (compute_coverage_stats_over bins depths) j (0, 0)).2 := by
  have hsorted : List.insertionSort (· ≤ ·) bins = bins :=
    List.Sorted.insertionSort_eq (hasc.imp (fun h => le_of_lt h))
  have hne : bins ≠ [] := by
    intro h; rw [h] at hk; simp at hk
  have hlen : 0 < bins.length := List.length_pos.mpr hne
  have hca : (count_array_expr bins depths).length = bins.length :=
    count_array_expr_length bins depths hne
  have hj : j < bins.length := lt_of_le_of_lt hjk hk
  unfold compute_coverage_stats_over
  rw [hsorted]
  rw [nthD_zip_map _ ((List.range bins.length).reverse) bins k 0 0 (0, 0)
      (by simpa using hk) hk,
    nthD_zip_map _ ((List.range bins.length).reverse) bins j 0 0 (0, 0)
      (by simpa using hj) hj]
  show ((nthD (count_array_expr bins depths) (nthD (List.range bins.length).reverse k 0) 0 : Nat) : ℚ)
        / (depths.length : ℚ)
      ≤ ((nthD (count_array_expr bins depths) (nthD (List.range bins.length).reverse j 0) 0 : Nat) : ℚ)
        / (depths.length : ℚ)
  rw [nthD_range_reverse bins.length k hk, nthD_range_reverse bins.length j hj]
  have hmono : nthD (count_array_expr bins depths) (bins.length - 1 - k) 0
      ≤ nthD (count_array_expr bins depths) (bins.length - 1 - j) 0 :=
    count_array_expr_mono bins depths _ _ (by omega) (by rw [hca]; omega)
  cases hn : depths.length with
  | zero => simp
  | succ m =>
      have hpos : (0 : ℚ) < ((m + 1 : Nat) : ℚ) := by
        exact_mod_cast Nat.succ_pos m
      exact (div_le_div_iff_of_pos_right hpos).mpr (by exact_mod_cast hmono)

/-- Instantiation of `coverage_fraction_monotone` with thresholds
`[1, 5, 10]` and sample depths 0 and 7: the reported fraction at threshold
10 is at most the fraction at threshold 1. -/
theorem coverage_fraction_monotone_witness :
    (nthD (compute_coverage_stats_over [1, 5, 10] [some 0, some 7]) 2 (0, 0)).2
      ≤ (nthD (compute_coverage_stats_over [1, 5, 10] [some 0, some 7]) 0 (0, 0)).2 :=
  coverage_fraction_monotone [1, 5, 10] [some 0, some 7] (by decide) 0 2 (by decide) (by decide)

/-- C4 (counterexample).  With 4 samples of depths `[0, 5, 10, 20]` and
thresholds `[5, 10]`, the fraction reported for threshold 10 is `1/2` (the
boundary is inclusive: depths 10 and 20 both count), not the `1/4` of the
claim. -/
theorem coverage_concrete_counterexample :
    (nthD (compute_coverage_stats_over [5, 10] [some 0, some 5, some 10, some 20]) 1 (0, 0)).2
      = 1 / 2 ∧ ((1 : ℚ) / 2 ≠ 1 / 4) := by
  constructor
  · have h1 : (nthD (compute_coverage_stats_over [5, 10]
        [some 0, some 5, some 10, some 20]) 1 (0, 0)).2
        = ((2 : Nat) : ℚ) / ((4 : Nat) : ℚ) := rfl
    rw [h1]
    norm_num
  · norm_num

/-- C4 (amended).  With 4 samples of depths `[0, 5, 10, 20]` and
thresholds `[5, 10]`, the code reports `over_5 = 3/4` and `over_10 = 1/2`:
a sample whose depth equals the threshold is counted as over it. -/
theorem coverage_concrete_case :
    compute_coverage_stats_over [5, 10] [some 0, some 5, some 10, some 20]
      = [(5, 3 / 4), (10, 1 / 2)] := by
  have h1 : compute_coverage_stats_over [5, 10] [some 0, some 5, some 10, some 20]
      = [(5, ((3 : Nat) : ℚ) / ((4 : Nat) : ℚ)), (10, ((2 : Nat) : ℚ) / ((4 : Nat) : ℚ))] := rfl
  rw [h1]
  norm_num

/-! ## Run-length depth weighting in `impute_sex_ploidy` -/

/-- The per-entry depth term of `get_chr_dp_ann` inside
`impute_sex_ploidy`:
`hl.cond(LGT.is_hom_ref(), DP * (END - locus.position), DP)`. -/
def get_chr_dp_ann_term (is_hom_ref : Bool) (dp endPos pos : Int) : Int :=
  if is_hom_ref then dp * (endPos - pos) else dp

/-- C5 (code evaluation).  A hom-ref reference-block entry with depth 4 at
position 100 with `END = 103` (an inclusive span of the 4 positions
100..103) contributes `4 * (103 - 100) = 12` to the per-sample depth sum:
neither the 16 of full-span weighting nor the unweighted 4. -/
theorem impute_sex_ploidy_block_dp_eval :
    get_chr_dp_ann_term true 4 103 100 = 12 ∧ ((12 : Int) ≠ 16 ∧ (12 : Int) ≠ 4) := by
  decide
